import Mathlib

/-
  Verification of the redis-key-scanner core (src/index.js).

  The development shallow-embeds the scanner:
  * `ScanOptions` models the validated option bag (absent option = `none`;
    the numeric limits use `none` for the JavaScript `Infinity` default).
  * `selectKey` is the filter conjunction of the pipeline callback
    (src/index.js lines 203-208), with the surrounding `!atSelectLimit`
    guard kept at the call site in `processKey`.
  * The scan itself is a small-step transition system `Step` over
    `ScanState`, whose constructors correspond to the event-loop callbacks
    of the source: scanStream 'data' (page dispatch + limit check),
    pipeline promise resolution (batch processing), scanStream 'end',
    the `endScan` latch firing (summary + end), a pipeline promise
    rejection, and the once-guarded redis 'error' handler.
-/

namespace RedisKeyScanner

/-- The validated option fields the scan core reads.  A `none` entry models
an absent option (`_.has(options, opt)` false / `isNaN(undefined)`), and for
`limit` / `scanLimit` it also models the `Infinity` default, against which
every `>=` comparison is false. -/
structure ScanOptions where
  maxIdle : Option Int := none
  maxTTL : Option Int := none
  minIdle : Option Int := none
  minTTL : Option Int := none
  noExpiry : Option Bool := none
  limit : Option Nat := none
  scanLimit : Option Nat := none
deriving DecidableEq

/-- `checkTTL` (src/index.js line 156): whether any TTL-based option is
present, i.e. `_.some(['noExpiry', 'maxTTL', 'minTTL'], hasOption)`. -/
def checkTTL (o : ScanOptions) : Bool :=
  o.noExpiry.isSome || o.maxTTL.isSome || o.minTTL.isSome

/-- The filter conjunction of src/index.js lines 204-208: each configured
bound contributes a clause, an absent bound contributes `isNaN(undefined)`
= vacuously true, and the `noExpiry` clause is
`!hasOption('noExpiry') || (options.noExpiry && ttl === -1)`. -/
def selectKey (o : ScanOptions) (idletime ttl : Int) : Bool :=
  (o.maxIdle.isNone || decide (idletime ≤ o.maxIdle.getD 0)) &&
  (o.maxTTL.isNone || decide (ttl ≤ o.maxTTL.getD 0)) &&
  (o.minIdle.isNone || decide (o.minIdle.getD 0 ≤ idletime)) &&
  (o.minTTL.isNone || decide (o.minTTL.getD 0 ≤ ttl)) &&
  (o.noExpiry.isNone || (o.noExpiry.getD false && decide (ttl = -1)))

/-- The filter predicate exactly as the specification words it (section 4.1
and section 8): all configured bounds ANDed, and "if noExpiry configured:
selected only when ttl == -1" — the configured value itself is not
consulted.  Kept separate from `selectKey` for the refinement comparison. -/
def selectBySpecWording (o : ScanOptions) (idletime ttl : Int) : Bool :=
  (o.maxIdle.isNone || decide (idletime ≤ o.maxIdle.getD 0)) &&
  (o.maxTTL.isNone || decide (ttl ≤ o.maxTTL.getD 0)) &&
  (o.minIdle.isNone || decide (o.minIdle.getD 0 ≤ idletime)) &&
  (o.minTTL.isNone || decide (o.minTTL.getD 0 ≤ ttl)) &&
  (o.noExpiry.isNone || decide (ttl = -1))

/-- The store's metadata for one scanned key: what `OBJECT IDLETIME` and
`TTL` answer for it (`ttl = -1` is the no-expiry sentinel). -/
structure KeyMeta where
  key : String
  idletime : Int
  ttl : Int
deriving DecidableEq

/-- A selected-key record as written by `self.write(entry)`
(src/index.js lines 211-217): the `ttl` field is set only when
`checkTTL` holds. -/
structure Entry where
  name : String
  key : String
  idletime : Int
  ttl : Option Int
deriving DecidableEq

/-- What the scanner emits: 'data' events carrying a selected-key entry or
the summary record, the 'end' event, and the 'error' event. -/
inductive Event where
  | selected (e : Entry)
  | summary (keysScanned keysSelected : Nat)
  | ended
  | error
deriving DecidableEq

/-- A command placed on the per-page pipeline. -/
inductive RedisCommand where
  | objectIdletime (key : String)
  | ttl (key : String)
deriving DecidableEq

/-- The pipeline built for one page (src/index.js lines 185-188):
`OBJECT IDLETIME` for every key, followed by `TTL` exactly when
`checkTTL` holds. -/
def pipelineCommands (o : ScanOptions) (batchKeys : List String) :
    List RedisCommand :=
  batchKeys.flatMap fun key =>
    RedisCommand.objectIdletime key :: (if checkTTL o then [RedisCommand.ttl key] else [])

/-- The store's positional answers to the pipeline for one page: per key its
idletime, then (when `checkTTL` holds) its ttl — the `results` array of the
`pipeline.exec()` callback. -/
def pageResults (o : ScanOptions) (page : List KeyMeta) : List Int :=
  page.flatMap fun r => r.idletime :: (if checkTTL o then [r.ttl] else [])

/-- Mutable scan state: the fields of the constructor closure plus the
environment's part of a run.  `pending` are the pages the enumeration has
not delivered yet, `outstanding` the dispatched pages whose pipeline
promise has not settled, `endScanCalled` the `_.once(endScan)` latch,
`summaryDone` whether its `Promise.all(...).then` body ran, `failed`
whether some pipeline promise rejected (which makes the `Promise.all`
reject, so the `then` body never runs), `errorEmitted` the
`_.once` latch of the redis 'error' handler. -/
structure ScanState where
  pending : List (List KeyMeta)
  outstanding : List (List KeyMeta)
  paused : Bool
  streamEnded : Bool
  scanned : Nat
  selected : Nat
  atSelectLimit : Bool
  endScanCalled : Bool
  summaryDone : Bool
  errorEmitted : Bool
  failed : Bool
  events : List Event
deriving DecidableEq

def initState (pages : List (List KeyMeta)) : ScanState :=
  { pending := pages, outstanding := [], paused := false, streamEnded := false,
    scanned := 0, selected := 0, atSelectLimit := false, endScanCalled := false,
    summaryDone := false, errorEmitted := false, failed := false, events := [] }

/-- `streamKeysSelected >= options.limit` (src/index.js line 210), false
against the `Infinity` default. -/
def atLimitReached (o : ScanOptions) (selected : Nat) : Bool :=
  match o.limit with
  | none => false
  | some l => decide (l ≤ selected)

/-- `streamKeysScanned >= options.scanLimit` (src/index.js line 222), false
against the `Infinity` default. -/
def scanLimitReached (o : ScanOptions) (scanned : Nat) : Bool :=
  match o.scanLimit with
  | none => false
  | some l => decide (l ≤ scanned)

/-- `const idleIdx = checkTTL ? i * 2 : i` (src/index.js line 197). -/
def idleIdxAt (o : ScanOptions) (i : Nat) : Nat :=
  if checkTTL o then 2 * i else i

/-- `const idletime = results[idleIdx][1]` (src/index.js line 199). -/
def idleAt (o : ScanOptions) (results : List Int) (i : Nat) : Int :=
  results.getD (idleIdxAt o i) 0

/-- `const ttl = checkTTL && results[idleIdx + 1][1]` (src/index.js
line 201).  When `checkTTL` is false the source value is the boolean
`false`; every clause that could read it is then disabled
(`selectKey_ttl_irrel`), so it is modelled as 0. -/
def ttlAt (o : ScanOptions) (results : List Int) (i : Nat) : Int :=
  if checkTTL o then results.getD (idleIdxAt o i + 1) 0 else 0

/-- The body of the per-key callback inside the `pipeline.exec()` handler
(src/index.js lines 191-218): positional indexing into `results`, the
`!atSelectLimit`-guarded filter conjunction, counter and latch update
(`atSelectLimit = streamKeysSelected >= options.limit`), and emission of
the entry. -/
def processKey (o : ScanOptions) (name : String) (results : List Int)
    (i : Nat) (key : String) (s : ScanState) : ScanState :=
  if !s.atSelectLimit && selectKey o (idleAt o results i) (ttlAt o results i) then
    { s with
      selected := s.selected + 1
      atSelectLimit := atLimitReached o (s.selected + 1)
      events := s.events ++ [Event.selected
        { name := name, key := key, idletime := idleAt o results i,
          ttl := if checkTTL o then some (ttlAt o results i) else none }] }
  else s

/-- The whole `pipeline.exec().then` callback for one page:
`_.each(batchKeys, (key, i) => ...)`. -/
def processBatch (o : ScanOptions) (name : String) (page : List KeyMeta)
    (s : ScanState) : ScanState :=
  ((page.map KeyMeta.key).enum).foldl
    (fun st p => processKey o name (pageResults o page) p.1 p.2 st) s

/-- The scanStream 'data' handler minus the asynchronous part
(src/index.js lines 179-226): count the page, dispatch its pipeline, then
the synchronous limit check that pauses the stream and calls `endScan`. -/
def dispatchPage (o : ScanOptions) (s : ScanState) (p : List KeyMeta)
    (rest : List (List KeyMeta)) : ScanState :=
  if s.atSelectLimit || scanLimitReached o (s.scanned + p.length) then
    { s with pending := rest, scanned := s.scanned + p.length,
             outstanding := s.outstanding ++ [p],
             paused := true, endScanCalled := true }
  else
    { s with pending := rest, scanned := s.scanned + p.length,
             outstanding := s.outstanding ++ [p] }

/-- The scanStream 'end' handler: `scanStream.on('end', endScan)` — the
only effect of a first `endScan()` call is arming the completion path. -/
def endState (s : ScanState) : ScanState :=
  { s with streamEnded := true, endScanCalled := true }

/-- The body of `endScan`'s `Promise.all(pipelinePromises).then(...)`
(src/index.js lines 170-176): write the summary record, then `self.end()`. -/
def finishState (s : ScanState) : ScanState :=
  { s with summaryDone := true,
           events := s.events ++ [Event.summary s.scanned s.selected, Event.ended] }

/-- A pipeline promise rejecting: the batch is settled but `Promise.all`
is now rejected, so the completion callback can never run. -/
def rejectState (s : ScanState) (pre post : List (List KeyMeta)) : ScanState :=
  { s with outstanding := pre ++ post, failed := true }

/-- The once-guarded redis 'error' handler (src/index.js lines 149-151). -/
def errorState (s : ScanState) : ScanState :=
  { s with errorEmitted := true, events := s.events ++ [Event.error] }

/-- One event-loop turn of the scan.  The boolean index selects the
environment: `Step o name false` are the steps of a run in which the store
answers every request (no connection error, no rejected pipeline promise);
`Step o name true` also allows a pipeline promise to reject and the redis
client to emit 'error'.  Batch promises may settle in any order
(`resolve`/`reject` pick an arbitrary outstanding page), and the stream
'end' event may race with a pause requested in the final 'data' handler. -/
inductive Step (o : ScanOptions) (name : String) : Bool → ScanState → ScanState → Prop where
  | page (adv : Bool) (s : ScanState) (p : List KeyMeta) (rest : List (List KeyMeta)) :
      s.pending = p :: rest → s.paused = false →
      Step o name adv s (dispatchPage o s p rest)
  | resolve (adv : Bool) (s : ScanState) (pre post : List (List KeyMeta)) (b : List KeyMeta) :
      s.outstanding = pre ++ b :: post →
      Step o name adv s (processBatch o name b { s with outstanding := pre ++ post })
  | streamEnd (adv : Bool) (s : ScanState) :
      s.pending = [] → s.streamEnded = false →
      Step o name adv s (endState s)
  | finish (adv : Bool) (s : ScanState) :
      s.endScanCalled = true → s.summaryDone = false → s.failed = false →
      s.outstanding = [] →
      Step o name adv s (finishState s)
  | reject (s : ScanState) (pre post : List (List KeyMeta)) (b : List KeyMeta) :
      s.outstanding = pre ++ b :: post →
      Step o name true s (rejectState s pre post)
  | errorEvt (s : ScanState) :
      s.errorEmitted = false →
      Step o name true s (errorState s)

/-- The states a scan over the given pages can reach. -/
def Reach (o : ScanOptions) (name : String) (adv : Bool)
    (pages : List (List KeyMeta)) (s : ScanState) : Prop :=
  Relation.ReflTransGen (Step o name adv) (initState pages) s

def isSelectedEv : Event → Bool
  | Event.selected _ => true
  | _ => false

def isSummaryEv : Event → Bool
  | Event.summary _ _ => true
  | _ => false

def isErrorEv : Event → Bool
  | Event.error => true
  | _ => false

def countSelected (evs : List Event) : Nat := evs.countP isSelectedEv

def countSummary (evs : List Event) : Nat := evs.countP isSummaryEv

def countError (evs : List Event) : Nat := evs.countP isErrorEv

/-- Total number of keys across a list of pages. -/
def pagesLen (pages : List (List KeyMeta)) : Nat :=
  (pages.map List.length).sum

/-- An option bag carrying `noExpiry: false`: it passes validation (the
constructor only checks membership in `supportedOptions`), so it is
reachable through the module interface. -/
def optNoExpiryFalse : ScanOptions := { noExpiry := some false }

/-- Options for the claim C4 counterexample: `noExpiry: true` together with
a minimum idle-time bound. -/
def optNoExpiryMinIdle : ScanOptions := { noExpiry := some true, minIdle := some 100 }

/-- An option bag with only a maximum TTL bound. -/
def optMaxTTL : ScanOptions := { maxTTL := some 100 }

/-- A throwaway key with zero idletime and zero ttl. -/
def kmeta0 : KeyMeta := { key := "k", idletime := 0, ttl := 0 }

/-- Options with only `scanLimit: 1`. -/
def optScanLimit1 : ScanOptions := { scanLimit := some 1 }

/-- A store holding a single one-key page. -/
def pagesOne : List (List KeyMeta) := [[kmeta0]]

/-- The state right after dispatching the single page of `pagesOne` under
`optScanLimit1`: the limit check pauses the stream at once. -/
def pausedOne : ScanState :=
  dispatchPage optScanLimit1 (initState pagesOne) [kmeta0] []

/-- A completed run over an empty store in which the redis client emitted
one (recoverable) 'error' event and the scan still ran to completion: the
event log ends up holding both an error and a summary. -/
def runBothTerminals : ScanState :=
  finishState (endState (errorState (initState [])))

/-- Whether an event is a selected-key record whose `ttl` field is present
exactly when `checkTTL` holds. -/
def selectedEntryOK (o : ScanOptions) : Event → Bool
  | Event.selected en => en.ttl.isSome == checkTTL o
  | _ => false

/-- Coupling of the selection counter and the `atSelectLimit` latch: the
latch (initially false, written only after a selection as
`streamKeysSelected >= options.limit`) holds exactly when some key has been
selected and the limit is reached; under a finite limit `L >= 1` the
counter never exceeds `L`. -/
def SelCounterInv (o : ScanOptions) (s : ScanState) : Prop :=
  s.atSelectLimit = (decide (0 < s.selected) && atLimitReached o s.selected) ∧
  ∀ L, o.limit = some L → 1 ≤ L → s.selected ≤ L

/-- Batch processing touches only `selected`, `atSelectLimit` and
`events`; every other field of the state is framed. -/
def SameFrame (s t : ScanState) : Prop :=
  t.pending = s.pending ∧ t.outstanding = s.outstanding ∧ t.paused = s.paused ∧
  t.streamEnded = s.streamEnded ∧ t.scanned = s.scanned ∧
  t.endScanCalled = s.endScanCalled ∧ t.summaryDone = s.summaryDone ∧
  t.errorEmitted = s.errorEmitted ∧ t.failed = s.failed

/-- The inductive invariant of the scan state machine, preserved by every
step (including promise rejections and error events). -/
structure Inv (o : ScanOptions) (pages : List (List KeyMeta)) (s : ScanState) : Prop where
  selCounter : SelCounterInv o s
  scannedSum : s.scanned + pagesLen s.pending = pagesLen pages
  pendSuffix : s.pending <:+ pages
  pausedEnd : s.paused = true → s.endScanCalled = true
  endedEnd : s.streamEnded = true → s.endScanCalled = true
  endNoMore : s.endScanCalled = true → (s.paused = true ∨ s.pending = [])
  sumEnd : s.summaryDone = true → s.endScanCalled = true
  sumOut : s.summaryDone = true → s.outstanding = []
  sumNotFailed : s.summaryDone = true → s.failed = false
  errCount : countError s.events = (if s.errorEmitted = true then 1 else 0)
  sumShape : if s.summaryDone = true then
      ∃ pre post, s.events = pre ++ Event.summary s.scanned s.selected ::
          Event.ended :: post ∧ countSummary pre = 0 ∧ post.all isErrorEv = true
    else countSummary s.events = 0
  entryTTL : ∀ en, Event.selected en ∈ s.events → en.ttl.isSome = checkTTL o

lemma maxClause_char (b : Option Int) (v : Int) :
    (b.isNone || decide (v ≤ b.getD 0)) = true ↔ ∀ m, b = some m → v ≤ m := by
  cases b <;> simp

lemma minClause_char (b : Option Int) (v : Int) :
    (b.isNone || decide (b.getD 0 ≤ v)) = true ↔ ∀ m, b = some m → m ≤ v := by
  cases b <;> simp

lemma noExpiryClause_char (b : Option Bool) (t : Int) :
    (b.isNone || (b.getD false && decide (t = -1))) = true ↔
      ∀ v, b = some v → (v = true ∧ t = -1) := by
  cases b with
  | none => simp
  | some v => cases v <;> simp

/-- Characterization of `selectKey` as the conjunction of per-bound
clauses. -/
lemma selectKey_iff (o : ScanOptions) (i t : Int) :
    selectKey o i t = true ↔
      ((∀ m, o.maxIdle = some m → i ≤ m) ∧
       (∀ m, o.maxTTL = some m → t ≤ m) ∧
       (∀ m, o.minIdle = some m → m ≤ i) ∧
       (∀ m, o.minTTL = some m → m ≤ t) ∧
       (∀ v, o.noExpiry = some v → (v = true ∧ t = -1))) := by
  unfold selectKey
  rw [Bool.and_eq_true, Bool.and_eq_true, Bool.and_eq_true, Bool.and_eq_true]
  rw [maxClause_char, maxClause_char, minClause_char, minClause_char,
    noExpiryClause_char]
  tauto

/-- When no TTL-based option is configured, the filter never reads the
ttl argument (in the source it is then the boolean `false`, and every
clause that would read it is disabled). -/
lemma selectKey_ttl_irrel (o : ScanOptions) (i t t' : Int)
    (h : checkTTL o = false) : selectKey o i t = selectKey o i t' := by
  have hne : o.noExpiry = none := by
    cases hv : o.noExpiry <;> simp [checkTTL, hv] at h ⊢
  have hmax : o.maxTTL = none := by
    cases hv : o.maxTTL <;> simp [checkTTL, hv] at h ⊢
  have hmin : o.minTTL = none := by
    cases hv : o.minTTL <;> simp [checkTTL, hv] at h ⊢
  simp [selectKey, hne, hmax, hmin]

/-- Claim C1 (counterexample): with `noExpiry` configured to `false`, the
spec's reading of the clause ("ttl == -1 when noExpiry is configured")
accepts a key with ttl = -1, but the code's clause
`options.noExpiry && ttl === -1` is false, so the key is rejected: the
stated iff fails at this input. -/
theorem selectKey_specWording_counterexample :
    selectKey optNoExpiryFalse 0 (-1) = false ∧
    selectBySpecWording optNoExpiryFalse 0 (-1) = true := by
  constructor <;> rfl

/-- Claim C1 (amended): the filter selects a key iff every configured bound
clause holds, where the `noExpiry` clause requires the configured value to
be truthy in addition to ttl = -1 (so `noExpiry: false` rejects every key);
and when no bound at all is configured every key is selected. -/
theorem selectKey_conjunction_characterization (o : ScanOptions) (i t : Int) :
    (selectKey o i t = true ↔
      ((∀ m, o.maxIdle = some m → i ≤ m) ∧
       (∀ m, o.maxTTL = some m → t ≤ m) ∧
       (∀ m, o.minIdle = some m → m ≤ i) ∧
       (∀ m, o.minTTL = some m → m ≤ t) ∧
       (∀ v, o.noExpiry = some v → (v = true ∧ t = -1)))) ∧
    (o.maxIdle = none → o.maxTTL = none → o.minIdle = none → o.minTTL = none →
      o.noExpiry = none → selectKey o i t = true) := by
  refine ⟨selectKey_iff o i t, fun h1 h2 h3 h4 h5 => ?_⟩
  simp [selectKey, h1, h2, h3, h4, h5]

/-- Claim C4 (counterexample): with `noExpiry: true` and `minIdle: 100`
configured, the key (idletime 5, ttl -1) has ttl = -1 but is rejected,
because the code ANDs the idle-time clauses with the noExpiry clause —
configuring `minIdle` does change the result. -/
theorem noExpiry_idle_bounds_counterexample :
    ¬ (∀ o : ScanOptions, o.noExpiry = some true →
        ∀ i t : Int, (selectKey o i t = true ↔ t = -1)) := by
  intro h
  exact absurd ((h optNoExpiryMinIdle rfl 5 (-1)).mpr rfl) (by decide)

/-- Claim C4 (amended): with `noExpiry` configured true, selection implies
ttl = -1; and the stated iff holds once no idle-time or ttl bound is
configured alongside.  Idle-time bounds, when present, still apply
conjunctively. -/
theorem noExpiry_clause_conjoined (o : ScanOptions) (i t : Int)
    (h : o.noExpiry = some true) :
    (selectKey o i t = true → t = -1) ∧
    (o.maxIdle = none → o.maxTTL = none → o.minIdle = none → o.minTTL = none →
      (selectKey o i t = true ↔ t = -1)) := by
  constructor
  · intro hs
    exact (((selectKey_iff o i t).mp hs).2.2.2.2 true h).2
  · intro h1 h2 h3 h4
    simp [selectKey, h1, h2, h3, h4, h]

theorem noExpiry_clause_conjoined_witness :
    selectKey { noExpiry := some true } 0 (-1) = true ↔ (-1 : Int) = -1 :=
  (noExpiry_clause_conjoined { noExpiry := some true } 0 (-1) rfl).2 rfl rfl rfl rfl

/-- Claim C5 (counterexample): with `maxTTL: 100` configured and `noExpiry`
absent, the key (idletime 0, ttl -1) is selected: the code compares the
sentinel as a signed integer, `-1 <= 100`, so the ttl = -1 key does satisfy
the configured max-TTL clause. -/
theorem ttl_sentinel_counterexample :
    ¬ (∀ o : ScanOptions, (o.maxTTL.isSome = true ∨ o.minTTL.isSome = true) →
        o.noExpiry = none → ∀ i : Int, selectKey o i (-1) = false) := by
  intro h
  exact absurd (h optMaxTTL (Or.inl rfl) rfl 0) (by decide)

/-- Claim C5 (amended): the sentinel is compared as a plain signed integer.
Under a configured `minTTL >= 0` a ttl = -1 key indeed fails that clause;
but under a configured `maxTTL >= -1` the clause `-1 <= maxTTL` holds, so
with only `maxTTL` configured a no-expiry key is selected. -/
theorem ttl_sentinel_amended (o : ScanOptions) (i : Int) :
    (∀ m, o.minTTL = some m → 0 ≤ m → o.noExpiry = none →
      selectKey o i (-1) = false) ∧
    (∀ m, o.maxTTL = some m → -1 ≤ m → o.maxIdle = none → o.minIdle = none →
      o.minTTL = none → o.noExpiry = none → selectKey o i (-1) = true) := by
  constructor
  · intro m hm h0 _
    by_contra hsel
    simp only [Bool.not_eq_false] at hsel
    have := ((selectKey_iff o i (-1)).mp hsel).2.2.2.1 m hm
    omega
  · intro m hm hle h1 h3 h4 h5
    rw [selectKey_iff]
    refine ⟨fun a ha => ?_, fun a ha => ?_, fun a ha => ?_, fun a ha => ?_,
      fun v hv => ?_⟩
    · rw [h1] at ha; cases ha
    · rw [hm] at ha; injection ha with hh; subst hh; exact hle
    · rw [h3] at ha; cases ha
    · rw [h4] at ha; cases ha
    · rw [h5] at hv; cases hv

lemma pagesLen_cons (p : List KeyMeta) (rest : List (List KeyMeta)) :
    pagesLen (p :: rest) = p.length + pagesLen rest := by
  simp [pagesLen]

lemma countSummary_append (l r : List Event) :
    countSummary (l ++ r) = countSummary l + countSummary r :=
  List.countP_append _ _ _

lemma countError_append (l r : List Event) :
    countError (l ++ r) = countError l + countError r :=
  List.countP_append _ _ _

lemma countSelected_append (l r : List Event) :
    countSelected (l ++ r) = countSelected l + countSelected r :=
  List.countP_append _ _ _

lemma sameFrame_refl (s : ScanState) : SameFrame s s :=
  ⟨rfl, rfl, rfl, rfl, rfl, rfl, rfl, rfl, rfl⟩

lemma sameFrame_trans {s t u : ScanState} (h1 : SameFrame s t)
    (h2 : SameFrame t u) : SameFrame s u := by
  obtain ⟨a1, a2, a3, a4, a5, a6, a7, a8, a9⟩ := h1
  obtain ⟨b1, b2, b3, b4, b5, b6, b7, b8, b9⟩ := h2
  exact ⟨b1.trans a1, b2.trans a2, b3.trans a3, b4.trans a4, b5.trans a5,
    b6.trans a6, b7.trans a7, b8.trans a8, b9.trans a9⟩

/-- `processKey` either leaves the state unchanged, or (only when the
select-limit latch is down) selects the key: counter incremented, latch
re-evaluated, one entry appended. -/
lemma processKey_cases (o : ScanOptions) (name : String) (results : List Int)
    (i : Nat) (key : String) (s : ScanState) :
    processKey o name results i key s = s ∨
    (s.atSelectLimit = false ∧
      processKey o name results i key s =
        { s with selected := s.selected + 1,
                 atSelectLimit := atLimitReached o (s.selected + 1),
                 events := s.events ++ [Event.selected
                   { name := name, key := key, idletime := idleAt o results i,
                     ttl := if checkTTL o then some (ttlAt o results i) else none }] }) := by
  unfold processKey
  cases hA : s.atSelectLimit with
  | true => simp [hA]
  | false =>
    cases hS : selectKey o (idleAt o results i) (ttlAt o results i) with
    | false => simp [hA, hS]
    | true => simp [hA, hS]

lemma processKey_frame (o : ScanOptions) (name : String) (results : List Int)
    (i : Nat) (key : String) (s : ScanState) :
    SameFrame s (processKey o name results i key s) := by
  rcases processKey_cases o name results i key s with h | ⟨_, h⟩ <;> rw [h]
  · exact sameFrame_refl s
  · exact ⟨rfl, rfl, rfl, rfl, rfl, rfl, rfl, rfl, rfl⟩

lemma processKey_events (o : ScanOptions) (name : String) (results : List Int)
    (i : Nat) (key : String) (s : ScanState) :
    ∃ tail, (processKey o name results i key s).events = s.events ++ tail ∧
      tail.all (selectedEntryOK o) = true := by
  rcases processKey_cases o name results i key s with h | ⟨_, h⟩ <;> rw [h]
  · exact ⟨[], by simp, rfl⟩
  · refine ⟨_, rfl, ?_⟩
    cases hc : checkTTL o <;> simp [selectedEntryOK, hc]

lemma processKey_selInv (o : ScanOptions) (name : String) (results : List Int)
    (i : Nat) (key : String) (s : ScanState) (h : SelCounterInv o s) :
    SelCounterInv o (processKey o name results i key s) := by
  rcases processKey_cases o name results i key s with hc | ⟨hflag, hc⟩ <;> rw [hc]
  · exact h
  · obtain ⟨hchar, hbound⟩ := h
    constructor
    · show atLimitReached o (s.selected + 1) =
        (decide (0 < s.selected + 1) && atLimitReached o (s.selected + 1))
      simp
    · intro L hL h1
      show s.selected + 1 ≤ L
      rw [hflag] at hchar
      rcases Bool.and_eq_false_iff.mp hchar.symm with h0 | hlim
      · have : s.selected = 0 := by
          simpa using of_decide_eq_false h0
        omega
      · have : ¬ (L ≤ s.selected) := by
          unfold atLimitReached at hlim
          rw [hL] at hlim
          simpa using of_decide_eq_false hlim
        omega

lemma processKey_atLimit_id (o : ScanOptions) (name : String) (results : List Int)
    (i : Nat) (key : String) (s : ScanState) (h : s.atSelectLimit = true) :
    processKey o name results i key s = s := by
  unfold processKey
  rw [h]
  simp

/-- The per-key fold of the `pipeline.exec()` callback: frame, event shape,
counter invariant and latch-idempotence, all at once. -/
lemma foldl_processKey_spec (o : ScanOptions) (name : String) (results : List Int)
    (l : List (Nat × String)) (s : ScanState) :
    SameFrame s (l.foldl (fun st p => processKey o name results p.1 p.2 st) s) ∧
    (∃ tail, (l.foldl (fun st p => processKey o name results p.1 p.2 st) s).events =
        s.events ++ tail ∧ tail.all (selectedEntryOK o) = true) ∧
    (SelCounterInv o s → SelCounterInv o
      (l.foldl (fun st p => processKey o name results p.1 p.2 st) s)) ∧
    (s.atSelectLimit = true →
      l.foldl (fun st p => processKey o name results p.1 p.2 st) s = s) := by
  induction l generalizing s with
  | nil =>
    exact ⟨sameFrame_refl s, ⟨[], by simp, rfl⟩, fun h => h, fun _ => rfl⟩
  | cons hd tl ih =>
    simp only [List.foldl_cons]
    obtain ⟨F, ⟨T, E, A⟩, SI, ID⟩ := ih (processKey o name results hd.1 hd.2 s)
    obtain ⟨T0, E0, A0⟩ := processKey_events o name results hd.1 hd.2 s
    refine ⟨sameFrame_trans (processKey_frame o name results hd.1 hd.2 s) F,
      ⟨T0 ++ T, ?_, ?_⟩,
      fun h => SI (processKey_selInv o name results hd.1 hd.2 s h),
      fun h => ?_⟩
    · rw [E, E0, List.append_assoc]
    · rw [List.all_append, A0, A]
      rfl
    · rw [processKey_atLimit_id o name results hd.1 hd.2 s h]
      exact (ih s).2.2.2 h

lemma processBatch_frame (o : ScanOptions) (name : String) (page : List KeyMeta)
    (s : ScanState) : SameFrame s (processBatch o name page s) :=
  (foldl_processKey_spec o name (pageResults o page)
    ((page.map KeyMeta.key).enum) s).1

lemma processBatch_events (o : ScanOptions) (name : String) (page : List KeyMeta)
    (s : ScanState) :
    ∃ tail, (processBatch o name page s).events = s.events ++ tail ∧
      tail.all (selectedEntryOK o) = true :=
  (foldl_processKey_spec o name (pageResults o page)
    ((page.map KeyMeta.key).enum) s).2.1

lemma processBatch_selInv (o : ScanOptions) (name : String) (page : List KeyMeta)
    (s : ScanState) (h : SelCounterInv o s) :
    SelCounterInv o (processBatch o name page s) :=
  (foldl_processKey_spec o name (pageResults o page)
    ((page.map KeyMeta.key).enum) s).2.2.1 h

lemma processBatch_atLimit_id (o : ScanOptions) (name : String)
    (page : List KeyMeta) (s : ScanState) (h : s.atSelectLimit = true) :
    processBatch o name page s = s :=
  (foldl_processKey_spec o name (pageResults o page)
    ((page.map KeyMeta.key).enum) s).2.2.2 h

/-- Facts about an all-selected event tail: it contributes no summary and
no error, and each entry in it has the `ttl` field exactly when `checkTTL`
holds. -/
lemma selectedTail_facts (o : ScanOptions) (tail : List Event)
    (h : tail.all (selectedEntryOK o) = true) :
    countSummary tail = 0 ∧ countError tail = 0 ∧
    ∀ en, Event.selected en ∈ tail → en.ttl.isSome = checkTTL o := by
  induction tail with
  | nil => exact ⟨rfl, rfl, by simp⟩
  | cons e rest ih =>
    rw [List.all_cons, Bool.and_eq_true] at h
    obtain ⟨he, hrest⟩ := h
    obtain ⟨c1, c2, c3⟩ := ih hrest
    cases e with
    | selected en =>
      refine ⟨?_, ?_, ?_⟩
      · unfold countSummary at c1 ⊢
        rw [List.countP_cons_of_neg _ _ (by simp [isSummaryEv])]
        exact c1
      · unfold countError at c2 ⊢
        rw [List.countP_cons_of_neg _ _ (by simp [isErrorEv])]
        exact c2
      · intro en2 hmem
        rcases List.mem_cons.mp hmem with heq | hmem2
        · obtain rfl : en2 = en := by injection heq
          simpa [selectedEntryOK] using he
        · exact c3 en2 hmem2
    | summary a b => simp [selectedEntryOK] at he
    | ended => simp [selectedEntryOK] at he
    | error => simp [selectedEntryOK] at he

lemma inv_init (o : ScanOptions) (pages : List (List KeyMeta)) :
    Inv o pages (initState pages) := by
  refine ⟨⟨by simp [initState], fun L _ _ => Nat.zero_le L⟩, by simp [initState],
    List.suffix_refl pages, ?_, ?_, ?_, ?_, ?_, ?_, by simp [initState, countError],
    ?_, ?_⟩
  · intro h; simp [initState] at h
  · intro h; simp [initState] at h
  · intro h; simp [initState] at h
  · intro h; simp [initState] at h
  · intro h; simp [initState] at h
  · intro h; simp [initState] at h
  · rw [if_neg (by simp [initState])]
    simp [initState, countSummary]
  · intro en h; simp [initState] at h

lemma inv_dispatch {o : ScanOptions} {pages : List (List KeyMeta)} {s : ScanState}
    (hs : Inv o pages s) (p : List KeyMeta) (rest : List (List KeyMeta))
    (hp : s.pending = p :: rest) (hpause : s.paused = false) :
    Inv o pages (dispatchPage o s p rest) := by
  have hec : s.endScanCalled = false := by
    cases he : s.endScanCalled
    · rfl
    · rcases hs.endNoMore he with h1 | h2
      · rw [hpause] at h1; cases h1
      · rw [h2] at hp; cases hp
  have hsd : s.summaryDone = false := by
    cases hv : s.summaryDone
    · rfl
    · rw [hs.sumEnd hv] at hec; cases hec
  have hsum : s.scanned + p.length + pagesLen rest = pagesLen pages := by
    have := hs.scannedSum
    rw [hp, pagesLen_cons] at this
    omega
  have hsuf : rest <:+ pages := by
    have h2 := hs.pendSuffix
    rw [hp] at h2
    exact (List.suffix_cons p rest).trans h2
  have hshape : countSummary s.events = 0 := by
    have := hs.sumShape
    rw [if_neg (by simp [hsd])] at this
    exact this
  unfold dispatchPage
  split
  · refine ⟨hs.selCounter, hsum, hsuf, fun _ => rfl, fun _ => rfl,
      fun _ => Or.inl rfl, ?_, ?_, ?_, hs.errCount, ?_, hs.entryTTL⟩
    · intro h; exact absurd h (by simp [hsd])
    · intro h; exact absurd h (by simp [hsd])
    · intro h; exact absurd h (by simp [hsd])
    · rw [if_neg (by simp [hsd])]
      exact hshape
  · refine ⟨hs.selCounter, hsum, hsuf, ?_, ?_, ?_, ?_, ?_, ?_, hs.errCount, ?_,
      hs.entryTTL⟩
    · intro h; exact absurd h (by simp [hpause])
    · intro h; exact hs.endedEnd h
    · intro h; exact absurd h (by simp [hec])
    · intro h; exact absurd h (by simp [hsd])
    · intro h; exact absurd h (by simp [hsd])
    · intro h; exact absurd h (by simp [hsd])
    · rw [if_neg (by simp [hsd])]
      exact hshape

lemma inv_resolve {o : ScanOptions} {pages : List (List KeyMeta)} {s : ScanState}
    (name : String) (hs : Inv o pages s)
    (pre post : List (List KeyMeta)) (b : List KeyMeta)
    (hout : s.outstanding = pre ++ b :: post) :
    Inv o pages (processBatch o name b { s with outstanding := pre ++ post }) := by
  have hsd : s.summaryDone = false := by
    cases hv : s.summaryDone
    · rfl
    · have := hs.sumOut hv
      rw [hout] at this
      exact absurd this (by simp)
  obtain ⟨f1, f2, f3, f4, f5, f6, f7, f8, f9⟩ :=
    processBatch_frame o name b { s with outstanding := pre ++ post }
  obtain ⟨tail, hev, hall⟩ :=
    processBatch_events o name b { s with outstanding := pre ++ post }
  obtain ⟨c1, c2, c3⟩ := selectedTail_facts o tail hall
  refine ⟨?_, ?_, ?_, ?_, ?_, ?_, ?_, ?_, ?_, ?_, ?_, ?_⟩
  · exact processBatch_selInv o name b _ hs.selCounter
  · rw [f5, f1]; exact hs.scannedSum
  · rw [f1]; exact hs.pendSuffix
  · intro h; rw [f3] at h; rw [f6]; exact hs.pausedEnd h
  · intro h; rw [f4] at h; rw [f6]; exact hs.endedEnd h
  · intro h; rw [f6] at h; rw [f3, f1]; exact hs.endNoMore h
  · intro h; rw [f7] at h; exact absurd h (by simp [hsd])
  · intro h; rw [f7] at h; exact absurd h (by simp [hsd])
  · intro h; rw [f7] at h; exact absurd h (by simp [hsd])
  · rw [hev, countError_append, c2, f8]
    simpa using hs.errCount
  · rw [if_neg (by rw [f7]; simp [hsd])]
    rw [hev, countSummary_append, c1]
    have := hs.sumShape
    rw [if_neg (by simp [hsd])] at this
    simpa using this
  · intro en hmem
    rw [hev] at hmem
    rcases List.mem_append.mp hmem with h1 | h2
    · exact hs.entryTTL en h1
    · exact c3 en h2

lemma inv_endState {o : ScanOptions} {pages : List (List KeyMeta)} {s : ScanState}
    (hs : Inv o pages s) (hpend : s.pending = []) :
    Inv o pages (endState s) := by
  refine ⟨hs.selCounter, hs.scannedSum, hs.pendSuffix, fun _ => rfl, fun _ => rfl,
    fun _ => Or.inr hpend, fun _ => rfl, fun h => hs.sumOut h,
    fun h => hs.sumNotFailed h, hs.errCount, hs.sumShape, hs.entryTTL⟩

lemma inv_finishState {o : ScanOptions} {pages : List (List KeyMeta)} {s : ScanState}
    (hs : Inv o pages s) (hec : s.endScanCalled = true) (hsd : s.summaryDone = false)
    (hfail : s.failed = false) (hout : s.outstanding = []) :
    Inv o pages (finishState s) := by
  have hcount : countSummary s.events = 0 := by
    have := hs.sumShape
    rw [if_neg (by simp [hsd])] at this
    exact this
  refine ⟨hs.selCounter, hs.scannedSum, hs.pendSuffix, fun _ => hec, fun _ => hec,
    fun h => hs.endNoMore hec, fun _ => hec, fun _ => hout, fun _ => hfail,
    ?_, ?_, ?_⟩
  · show countError (s.events ++ [Event.summary s.scanned s.selected, Event.ended]) = _
    rw [countError_append]
    have h2 : countError [Event.summary s.scanned s.selected, Event.ended] = 0 := rfl
    rw [h2]
    simpa using hs.errCount
  · rw [if_pos (show (finishState s).summaryDone = true from rfl)]
    exact ⟨s.events, [], rfl, hcount, rfl⟩
  · intro en hmem
    have hmem2 : Event.selected en ∈
        s.events ++ [Event.summary s.scanned s.selected, Event.ended] := hmem
    rcases List.mem_append.mp hmem2 with h1 | h2
    · exact hs.entryTTL en h1
    · simp at h2

lemma inv_rejectState {o : ScanOptions} {pages : List (List KeyMeta)} {s : ScanState}
    (hs : Inv o pages s) (pre post : List (List KeyMeta)) (b : List KeyMeta)
    (hout : s.outstanding = pre ++ b :: post) :
    Inv o pages (rejectState s pre post) := by
  have hsd : s.summaryDone = false := by
    cases hv : s.summaryDone
    · rfl
    · have := hs.sumOut hv
      rw [hout] at this
      exact absurd this (by simp)
  refine ⟨hs.selCounter, hs.scannedSum, hs.pendSuffix, fun h => hs.pausedEnd h,
    fun h => hs.endedEnd h, fun h => hs.endNoMore h, ?_, ?_, ?_, hs.errCount, ?_,
    hs.entryTTL⟩
  · intro h; exact absurd h (by simp [rejectState, hsd])
  · intro h; exact absurd h (by simp [rejectState, hsd])
  · intro h; exact absurd h (by simp [rejectState, hsd])
  · rw [if_neg (by simp [rejectState, hsd])]
    have := hs.sumShape
    rw [if_neg (by simp [hsd])] at this
    exact this

lemma inv_errorState {o : ScanOptions} {pages : List (List KeyMeta)} {s : ScanState}
    (hs : Inv o pages s) (he : s.errorEmitted = false) :
    Inv o pages (errorState s) := by
  have hc : countError s.events = 0 := by
    have := hs.errCount
    rw [if_neg (by simp [he])] at this
    exact this
  refine ⟨hs.selCounter, hs.scannedSum, hs.pendSuffix, fun h => hs.pausedEnd h,
    fun h => hs.endedEnd h, fun h => hs.endNoMore h, fun h => hs.sumEnd h,
    fun h => hs.sumOut h, fun h => hs.sumNotFailed h, ?_, ?_, ?_⟩
  · show countError (s.events ++ [Event.error]) = _
    rw [countError_append, hc,
      if_pos (show (errorState s).errorEmitted = true from rfl)]
    rfl
  · cases hv : s.summaryDone
    · rw [if_neg (by simp [errorState, hv])]
      have := hs.sumShape
      rw [if_neg (by simp [hv])] at this
      show countSummary (s.events ++ [Event.error]) = 0
      rw [countSummary_append, this]
      rfl
    · rw [if_pos (by simp [errorState, hv])]
      have := hs.sumShape
      rw [if_pos (by simp [hv])] at this
      obtain ⟨pre, post, hev, hpre, hpost⟩ := this
      refine ⟨pre, post ++ [Event.error], ?_, hpre, ?_⟩
      · show s.events ++ [Event.error] =
          pre ++ Event.summary s.scanned s.selected :: Event.ended :: (post ++ [Event.error])
        rw [hev]
        simp
      · rw [List.all_append, hpost]
        rfl
  · intro en hmem
    have hmem2 : Event.selected en ∈ s.events ++ [Event.error] := hmem
    rcases List.mem_append.mp hmem2 with h1 | h2
    · exact hs.entryTTL en h1
    · simp at h2

lemma inv_step {o : ScanOptions} {name : String} {adv : Bool}
    {pages : List (List KeyMeta)} {s t : ScanState}
    (hs : Inv o pages s) (h : Step o name adv s t) : Inv o pages t := by
  cases h with
  | page _ _ p rest hp hpause => exact inv_dispatch hs p rest hp hpause
  | resolve _ _ pre post b hout => exact inv_resolve name hs pre post b hout
  | streamEnd _ _ hpend hse => exact inv_endState hs hpend
  | finish _ _ hec hsd hfail hout => exact inv_finishState hs hec hsd hfail hout
  | reject _ pre post b hout => exact inv_rejectState hs pre post b hout
  | errorEvt _ he => exact inv_errorState hs he

/-- Every reachable state satisfies the inductive invariant. -/
lemma reach_inv {o : ScanOptions} {name : String} {adv : Bool}
    {pages : List (List KeyMeta)} {s : ScanState}
    (h : Reach o name adv pages s) : Inv o pages s := by
  unfold Reach at h
  induction h with
  | refl => exact inv_init o pages
  | tail hab hbc ih => exact inv_step ih hbc

/-- Every step of an error-free run is also a step of the full system. -/
lemma step_false_true {o : ScanOptions} {name : String} {s t : ScanState}
    (h : Step o name false s t) : Step o name true s t := by
  cases h with
  | page _ _ p rest h1 h2 => exact Step.page true _ p rest h1 h2
  | resolve _ _ pre post b h1 => exact Step.resolve true _ pre post b h1
  | streamEnd _ _ h1 h2 => exact Step.streamEnd true _ h1 h2
  | finish _ _ h1 h2 h3 h4 => exact Step.finish true _ h1 h2 h3 h4

lemma reach_false_true {o : ScanOptions} {name : String}
    {pages : List (List KeyMeta)} {s : ScanState}
    (h : Reach o name false pages s) : Reach o name true pages s := by
  unfold Reach at h ⊢
  exact Relation.ReflTransGen.mono (fun a b hab => step_false_true hab) h

/-- An error-free run never sets the failure or error latches. -/
lemma reach_false_clean {o : ScanOptions} {name : String}
    {pages : List (List KeyMeta)} {s : ScanState}
    (h : Reach o name false pages s) :
    s.failed = false ∧ s.errorEmitted = false := by
  unfold Reach at h
  induction h with
  | refl => exact ⟨rfl, rfl⟩
  | tail hab hbc ih =>
    cases hbc with
    | page _ _ p rest hp hpause =>
      unfold dispatchPage
      split
      · exact ih
      · exact ih
    | resolve _ _ pre post b hout =>
      obtain ⟨f1, f2, f3, f4, f5, f6, f7, f8, f9⟩ := processBatch_frame o name b _
      exact ⟨f9.trans ih.1, f8.trans ih.2⟩
    | streamEnd _ _ h1 h2 => exact ih
    | finish _ _ h1 h2 h3 h4 => exact ih

/-- If the summary record with counters `(a, b)` has been emitted, those
counters are the state's current ones and the completion latch is up. -/
lemma summary_mem_eq {o : ScanOptions} {pages : List (List KeyMeta)}
    {s : ScanState} (hs : Inv o pages s) {a b : Nat}
    (hmem : Event.summary a b ∈ s.events) :
    a = s.scanned ∧ b = s.selected ∧ s.summaryDone = true := by
  cases hv : s.summaryDone
  · exfalso
    have h0 := hs.sumShape
    rw [if_neg (by simp [hv])] at h0
    have hpos : 0 < countSummary s.events := by
      unfold countSummary
      rw [List.countP_pos_iff]
      exact ⟨_, hmem, rfl⟩
    omega
  · have h0 := hs.sumShape
    rw [if_pos (by simp [hv])] at h0
    obtain ⟨pre, post, hev, hpre, hpost⟩ := h0
    rw [hev] at hmem
    rcases List.mem_append.mp hmem with h1 | h2
    · exfalso
      have hpos : 0 < countSummary pre := by
        unfold countSummary
        rw [List.countP_pos_iff]
        exact ⟨_, h1, rfl⟩
      omega
    · rcases List.mem_cons.mp h2 with heq | h3
      · injection heq with ha hb
        exact ⟨ha, hb, rfl⟩
      · rcases List.mem_cons.mp h3 with heq | h4
        · cases heq
        · have := List.all_eq_true.mp hpost _ h4
          simp [isErrorEv] at this

/-- In an error-free run, a state from which no further step is possible
has run the completion callback (the quiescence argument: no outstanding
batch, so if `endScan` were armed the summary would fire; otherwise the
stream could still deliver a page or its 'end' event). -/
lemma maximal_summaryDone {o : ScanOptions} {name : String}
    {pages : List (List KeyMeta)} {s : ScanState}
    (hr : Reach o name false pages s)
    (hmax : ∀ t, ¬ Step o name false s t) : s.summaryDone = true := by
  have hinv : Inv o pages s := reach_inv hr
  obtain ⟨hfail, herr⟩ := reach_false_clean hr
  by_contra hx
  rw [Bool.not_eq_true] at hx
  have hout : s.outstanding = [] := by
    cases ho : s.outstanding with
    | nil => rfl
    | cons b rest => exact absurd (Step.resolve false s [] rest b ho) (hmax _)
  have hec : s.endScanCalled = false := by
    cases he : s.endScanCalled
    · rfl
    · exact absurd (Step.finish false s he hx hfail hout) (hmax _)
  have hpaused : s.paused = false := by
    cases hp : s.paused
    · rfl
    · rw [hinv.pausedEnd hp] at hec; cases hec
  have hpend : s.pending = [] := by
    cases hp : s.pending with
    | nil => rfl
    | cons p rest => exact absurd (Step.page false s p rest hp hpaused) (hmax _)
  have hse : s.streamEnded = false := by
    cases hv : s.streamEnded
    · rfl
    · rw [hinv.endedEnd hv] at hec; cases hec
  exact absurd (Step.streamEnd false s hpend hse) (hmax _)

lemma allError_countSummary {post : List Event} (h : post.all isErrorEv = true) :
    countSummary post = 0 := by
  unfold countSummary
  rw [List.countP_eq_zero]
  intro e hin
  have he := List.all_eq_true.mp h _ hin
  cases e with
  | error => simp [isSummaryEv]
  | selected en => simp [isErrorEv] at he
  | summary a b => simp [isErrorEv] at he
  | ended => simp [isErrorEv] at he

lemma countSummary_pair (a b : Nat) :
    countSummary [Event.summary a b, Event.ended] = 1 := rfl

lemma countSelected_finishState (s : ScanState) :
    countSelected (finishState s).events = countSelected s.events := by
  show countSelected
    (s.events ++ [Event.summary s.scanned s.selected, Event.ended]) = _
  rw [countSelected_append]
  have h0 : countSelected [Event.summary s.scanned s.selected, Event.ended] = 0 := rfl
  omega

lemma countSelected_errorState (s : ScanState) :
    countSelected (errorState s).events = countSelected s.events := by
  show countSelected (s.events ++ [Event.error]) = _
  rw [countSelected_append]
  have h0 : countSelected [Event.error] = 0 := rfl
  omega

/-- At most one summary record ever sits in the event log. -/
lemma inv_countSummary_le_one {o : ScanOptions} {pages : List (List KeyMeta)}
    {s : ScanState} (hinv : Inv o pages s) : countSummary s.events ≤ 1 := by
  cases hv : s.summaryDone
  · have h0 := hinv.sumShape
    rw [if_neg (by simp [hv])] at h0
    omega
  · have h0 := hinv.sumShape
    rw [if_pos (by simp [hv])] at h0
    obtain ⟨pre, post, hev, hpre, hpost⟩ := h0
    rw [hev, show pre ++ Event.summary s.scanned s.selected :: Event.ended :: post
        = pre ++ [Event.summary s.scanned s.selected, Event.ended] ++ post by simp]
    rw [countSummary_append, countSummary_append, hpre, countSummary_pair,
      allError_countSummary hpost]

/-- A single step out of a paused state keeps the stream paused and cannot
change the scanned counter or deliver a page. -/
lemma paused_frozen_step {o : ScanOptions} {name : String} {adv : Bool}
    {s t : ScanState} (h : Step o name adv s t) (hp : s.paused = true) :
    t.paused = true ∧ t.scanned = s.scanned ∧ t.pending = s.pending := by
  cases h with
  | page _ _ p rest h1 h2 => rw [hp] at h2; cases h2
  | resolve _ _ pre post b hout =>
    obtain ⟨f1, f2, f3, f4, f5, f6, f7, f8, f9⟩ := processBatch_frame o name b _
    exact ⟨f3.trans hp, f5, f1⟩
  | streamEnd _ _ h1 h2 => exact ⟨hp, rfl, rfl⟩
  | finish _ _ h1 h2 h3 h4 => exact ⟨hp, rfl, rfl⟩
  | reject _ pre post b hout => exact ⟨hp, rfl, rfl⟩
  | errorEvt _ he => exact ⟨hp, rfl, rfl⟩

/-- Pausing is permanent: nothing downstream of a paused state un-pauses
the enumeration, requests a page or bumps the scanned counter. -/
lemma paused_frozen {o : ScanOptions} {name : String} {adv : Bool}
    {s t : ScanState} (h : Relation.ReflTransGen (Step o name adv) s t)
    (hp : s.paused = true) :
    t.paused = true ∧ t.scanned = s.scanned ∧ t.pending = s.pending := by
  induction h with
  | refl => exact ⟨hp, rfl, rfl⟩
  | tail hab hbc ih =>
    obtain ⟨p1, p2, p3⟩ := ih
    obtain ⟨q1, q2, q3⟩ := paused_frozen_step hbc p1
    exact ⟨q1, q2.trans p2, q3.trans p3⟩

/-- Claim C2: along every error-free run at most one summary is emitted,
and whenever the run has completed (no step remains possible) the event
log is exactly a summary-free prefix — which holds every selected-key
record the scan produced — followed by the one summary and the end signal:
the summary is emitted exactly once, strictly after every selected-key
record, even when a limit hit and natural exhaustion both arm `endScan`. -/
theorem summary_exactly_once_after_selected (o : ScanOptions) (name : String)
    (pages : List (List KeyMeta)) (s : ScanState)
    (hr : Reach o name false pages s) :
    countSummary s.events ≤ 1 ∧
    ((∀ t, ¬ Step o name false s t) →
      ∃ pre, s.events = pre ++ [Event.summary s.scanned s.selected, Event.ended] ∧
        countSummary pre = 0) := by
  have hinv := reach_inv (reach_false_true hr)
  obtain ⟨hfail, herr⟩ := reach_false_clean hr
  refine ⟨inv_countSummary_le_one hinv, ?_⟩
  intro hmax
  have hsd := maximal_summaryDone hr hmax
  have h0 := hinv.sumShape
  rw [if_pos (by simp [hsd])] at h0
  obtain ⟨pre, post, hev, hpre, hpost⟩ := h0
  have hpost0 : post = [] := by
    have hcnt := hinv.errCount
    rw [if_neg (by simp [herr])] at hcnt
    rw [hev, show pre ++ Event.summary s.scanned s.selected :: Event.ended :: post
        = pre ++ [Event.summary s.scanned s.selected, Event.ended] ++ post by simp,
      countError_append, countError_append] at hcnt
    have hlen : countError post = post.length := by
      unfold countError
      rw [List.countP_eq_length]
      exact fun a ha => List.all_eq_true.mp hpost a ha
    have : post.length = 0 := by omega
    exact List.length_eq_zero.mp this
  subst hpost0
  exact ⟨pre, hev, hpre⟩

theorem summary_exactly_once_witness :
    countSummary (initState []).events ≤ 1 :=
  (summary_exactly_once_after_selected { } "server" [] (initState [])
    Relation.ReflTransGen.refl).1

/-- Claim C7: at every reachable state, keysScanned plus the keys on the
not-yet-delivered pages accounts for the whole store — i.e. it equals the
sum of the lengths of the pages dispatched so far, having been bumped
synchronously at dispatch time; no step ever decreases it; and any emitted
summary carries exactly the current keysScanned. -/
theorem keys_scanned_accounting (o : ScanOptions) (name : String)
    (pages : List (List KeyMeta)) (s : ScanState)
    (hr : Reach o name true pages s) :
    s.scanned + pagesLen s.pending = pagesLen pages ∧
    (∀ t, Step o name true s t → s.scanned ≤ t.scanned) ∧
    (∀ a b, Event.summary a b ∈ s.events → a = s.scanned) := by
  have hinv := reach_inv hr
  refine ⟨hinv.scannedSum, ?_, ?_⟩
  · intro t hstep
    cases hstep with
    | page _ _ p rest hp hpause =>
      unfold dispatchPage
      split
      · show s.scanned ≤ s.scanned + p.length
        omega
      · show s.scanned ≤ s.scanned + p.length
        omega
    | resolve _ _ pre post b hout =>
      obtain ⟨f1, f2, f3, f4, f5, f6, f7, f8, f9⟩ := processBatch_frame o name b _
      rw [f5]
    | streamEnd _ _ h1 h2 => exact Nat.le_refl _
    | finish _ _ h1 h2 h3 h4 => exact Nat.le_refl _
    | reject _ pre post b hout => exact Nat.le_refl _
    | errorEvt _ he => exact Nat.le_refl _
  · intro a b hmem
    exact (summary_mem_eq hinv hmem).1

theorem keys_scanned_accounting_witness :
    (initState []).scanned + pagesLen (initState []).pending = pagesLen [] :=
  (keys_scanned_accounting { } "server" [] (initState [])
    Relation.ReflTransGen.refl).1

/-- Claim C3: under a finite select limit `L >= 1`, at every reachable
state keysSelected is at most `L` (so any emitted summary reports at most
`L`); the `atSelectLimit` latch holds exactly when the counter has reached
`L` — monotonic false-to-true — and once it holds, every further step keeps
it up, selects no further key and emits no further selected-key record. -/
theorem select_limit_invariant (o : ScanOptions) (name : String)
    (pages : List (List KeyMeta)) (s : ScanState) (L : Nat)
    (hL : o.limit = some L) (hL1 : 1 ≤ L)
    (hr : Reach o name true pages s) :
    s.selected ≤ L ∧
    (∀ a b, Event.summary a b ∈ s.events → b ≤ L) ∧
    (s.atSelectLimit = true ↔ L ≤ s.selected) ∧
    (s.atSelectLimit = true → ∀ t, Step o name true s t →
      t.atSelectLimit = true ∧ t.selected = s.selected ∧
      countSelected t.events = countSelected s.events) := by
  have hinv := reach_inv hr
  obtain ⟨hchar, hbound⟩ := hinv.selCounter
  have hsel : s.selected ≤ L := hbound L hL hL1
  refine ⟨hsel, ?_, ?_, ?_⟩
  · intro a b hmem
    obtain ⟨_, hb, _⟩ := summary_mem_eq hinv hmem
    omega
  · constructor
    · intro hf
      rw [hf] at hchar
      have h2 := hchar.symm
      rw [Bool.and_eq_true] at h2
      have h3 := h2.2
      unfold atLimitReached at h3
      rw [hL] at h3
      exact of_decide_eq_true h3
    · intro hge
      rw [hchar]
      have h1 : decide (0 < s.selected) = true := by
        rw [decide_eq_true_iff]
        omega
      have h2 : atLimitReached o s.selected = true := by
        unfold atLimitReached
        rw [hL]
        exact decide_eq_true hge
      rw [h1, h2]
      rfl
  · intro hf t hstep
    cases hstep with
    | page _ _ p rest hp hpause =>
      unfold dispatchPage
      split
      · exact ⟨hf, rfl, rfl⟩
      · exact ⟨hf, rfl, rfl⟩
    | resolve _ _ pre post b hout =>
      rw [processBatch_atLimit_id o name b { s with outstanding := pre ++ post } hf]
      exact ⟨hf, rfl, rfl⟩
    | streamEnd _ _ h1 h2 => exact ⟨hf, rfl, rfl⟩
    | finish _ _ h1 h2 h3 h4 =>
      exact ⟨hf, rfl, countSelected_finishState _⟩
    | reject _ pre post b hout => exact ⟨hf, rfl, rfl⟩
    | errorEvt _ he =>
      exact ⟨hf, rfl, countSelected_errorState _⟩

theorem select_limit_invariant_witness :
    (initState ([] : List (List KeyMeta))).selected ≤ 1 :=
  (select_limit_invariant { limit := some 1 } "server" [] (initState []) 1
    rfl (by decide) Relation.ReflTransGen.refl).1

/-- One step preserves the scan-limit accounting for a scan with a finite
scan limit `n >= 1`, no select limit, and singleton pages. -/
lemma scan_limit_step {o : ScanOptions} {name : String} {adv : Bool}
    {pages : List (List KeyMeta)} {s t : ScanState}
    (hinv : Inv o pages s) {n : Nat} (hn : o.scanLimit = some n)
    (hlim : o.limit = none) (hunit : ∀ p ∈ pages, p.length = 1)
    (hstep : Step o name adv s t)
    (ih : (s.paused = false → s.scanned < n) ∧
      (s.paused = true → n ≤ s.scanned) ∧ s.scanned ≤ n) :
    (t.paused = false → t.scanned < n) ∧
    (t.paused = true → n ≤ t.scanned) ∧ t.scanned ≤ n := by
  obtain ⟨i1, i2, i3⟩ := ih
  cases hstep with
  | page _ _ p rest hp hpause =>
    have hflag : s.atSelectLimit = false := by
      have hc := hinv.selCounter.1
      unfold atLimitReached at hc
      rw [hlim] at hc
      simpa using hc
    have hplen : p.length = 1 := by
      apply hunit
      have hsuf := hinv.pendSuffix
      rw [hp] at hsuf
      exact hsuf.subset (List.mem_cons_self p rest)
    have hscan := i1 hpause
    unfold dispatchPage
    split
    case isTrue hcond =>
      rw [hflag] at hcond
      simp only [Bool.false_or] at hcond
      unfold scanLimitReached at hcond
      rw [hn] at hcond
      have hge : n ≤ s.scanned + p.length := of_decide_eq_true hcond
      refine ⟨fun hcontr => by simp at hcontr, fun _ => hge, ?_⟩
      show s.scanned + p.length ≤ n
      omega
    case isFalse hcond =>
      rw [hflag] at hcond
      simp only [Bool.false_or] at hcond
      unfold scanLimitReached at hcond
      rw [hn] at hcond
      have hlt : ¬ n ≤ s.scanned + p.length := by
        simpa using of_decide_eq_false (Bool.of_not_eq_true hcond)
      refine ⟨fun _ => ?_, fun hcontr => by simp [hpause] at hcontr, ?_⟩
      · show s.scanned + p.length < n
        omega
      · show s.scanned + p.length ≤ n
        omega
  | resolve _ _ pre post b hout =>
    obtain ⟨f1, f2, f3, f4, f5, f6, f7, f8, f9⟩ := processBatch_frame o name b _
    rw [f3, f5]
    exact ⟨i1, i2, i3⟩
  | streamEnd _ _ h1 h2 => exact ⟨i1, i2, i3⟩
  | finish _ _ h1 h2 h3 h4 => exact ⟨i1, i2, i3⟩
  | reject _ pre post b hout => exact ⟨i1, i2, i3⟩
  | errorEvt _ he => exact ⟨i1, i2, i3⟩

/-- Scan-limit accounting along a whole run: while un-paused the counter is
strictly below the limit, once paused it is at or above it, and with
singleton pages it never overshoots. -/
lemma scan_limit_reach {o : ScanOptions} {name : String} {adv : Bool}
    {pages : List (List KeyMeta)} {s : ScanState}
    (hr : Reach o name adv pages s) {n : Nat} (hn : o.scanLimit = some n)
    (hlim : o.limit = none) (h1 : 1 ≤ n)
    (hunit : ∀ p ∈ pages, p.length = 1) :
    (s.paused = false → s.scanned < n) ∧
    (s.paused = true → n ≤ s.scanned) ∧ s.scanned ≤ n := by
  unfold Reach at hr
  induction hr with
  | refl =>
    refine ⟨fun _ => ?_, fun h => ?_, ?_⟩
    · show 0 < n
      omega
    · simp [initState] at h
    · show 0 ≤ n
      omega
  | tail hab hbc ih =>
    exact scan_limit_step (reach_inv hab) hn hlim hunit hbc ih

lemma pagesLen_replicate (k : KeyMeta) :
    pagesLen (List.replicate 10 [k]) = 10 := by
  simp [pagesLen]

/-- Claim C8: the termination check runs at page-dispatch time — whenever a
dispatch pauses the stream, no later step un-pauses it, requests a page or
changes keysScanned; and (scenario D) with scanLimit 2 over a store of ten
one-key pages, every completed error-free run stops with keysScanned = 2,
eight pages never requested, and a summary reporting keysScanned = 2. -/
theorem scan_limit_halts (o : ScanOptions) (name : String)
    (pages : List (List KeyMeta)) (s : ScanState)
    (hr : Reach o name true pages s) :
    (∀ p rest, s.pending = p :: rest → s.paused = false →
      ((dispatchPage o s p rest).paused = true ↔
        (s.atSelectLimit = true ∨
          scanLimitReached o (s.scanned + p.length) = true))) ∧
    (s.paused = true → ∀ t, Relation.ReflTransGen (Step o name true) s t →
      t.paused = true ∧ t.scanned = s.scanned ∧ t.pending = s.pending) ∧
    (∀ k : KeyMeta, o = { scanLimit := some 2 } → pages = List.replicate 10 [k] →
      Reach o name false pages s → (∀ t, ¬ Step o name false s t) →
      s.scanned = 2 ∧ pagesLen s.pending = 8 ∧
      Event.summary 2 s.selected ∈ s.events) := by
  refine ⟨?_, fun hp t ht => paused_frozen ht hp, ?_⟩
  · intro p rest hp hpause
    unfold dispatchPage
    split
    case isTrue hcond =>
      rw [Bool.or_eq_true] at hcond
      exact ⟨fun _ => hcond, fun _ => rfl⟩
    case isFalse hcond =>
      rw [Bool.or_eq_true] at hcond
      push_neg at hcond
      constructor
      · intro hcontr
        rw [hpause] at hcontr
        cases hcontr
      · intro hor
        rcases hor with h | h
        · exact absurd h hcond.1
        · exact absurd h hcond.2
  rintro k rfl rfl hr0 hmax
  have hinv := reach_inv hr
  have hunit : ∀ p ∈ List.replicate 10 [k], p.length = 1 := by
    intro p hp
    rw [List.eq_of_mem_replicate hp]
    rfl
  obtain ⟨b1, b2, b3⟩ := scan_limit_reach hr rfl rfl (by omega) hunit
  have hsum := hinv.scannedSum
  rw [pagesLen_replicate k] at hsum
  have hsd := maximal_summaryDone hr0 hmax
  have hpause : s.paused = true := by
    cases hp : s.paused
    · exfalso
      have hlt := b1 hp
      cases hpend : s.pending with
      | nil =>
        rw [hpend] at hsum
        simp [pagesLen] at hsum
        omega
      | cons p rest => exact absurd (Step.page false s p rest hpend hp) (hmax _)
    · rfl
  have hge := b2 hpause
  have hs2 : s.scanned = 2 := by omega
  refine ⟨hs2, by omega, ?_⟩
  have h0 := hinv.sumShape
  rw [if_pos (by simp [hsd])] at h0
  obtain ⟨pre, post, hev, hpre, hpost⟩ := h0
  rw [hev, hs2]
  exact List.mem_append.mpr (Or.inr (List.mem_cons_self _ _))

theorem scan_limit_halts_witness :
    pausedOne.paused = true ∧ pausedOne.scanned = pausedOne.scanned ∧
    pausedOne.pending = pausedOne.pending :=
  (scan_limit_halts optScanLimit1 "server" pagesOne pausedOne
    (Relation.ReflTransGen.tail Relation.ReflTransGen.refl
      (Step.page true (initState pagesOne) [kmeta0] [] rfl rfl))).2.1
    rfl pausedOne Relation.ReflTransGen.refl

/-- A `TTL` command reaches the pipeline for exactly the page's keys, and
only when `checkTTL` holds. -/
lemma ttl_mem_pipeline (o : ScanOptions) (keys : List String) (k : String) :
    RedisCommand.ttl k ∈ pipelineCommands o keys ↔
      (checkTTL o = true ∧ k ∈ keys) := by
  unfold pipelineCommands
  rw [List.mem_flatMap]
  constructor
  · rintro ⟨a, ha, hmem⟩
    rw [List.mem_cons] at hmem
    rcases hmem with heq | h2
    · cases heq
    · by_cases hc : checkTTL o = true
      · rw [if_pos hc, List.mem_singleton] at h2
        injection h2 with hk
        subst hk
        exact ⟨hc, ha⟩
      · rw [if_neg hc] at h2
        exact absurd h2 (List.not_mem_nil _)
  · rintro ⟨hc, hk⟩
    refine ⟨k, hk, ?_⟩
    rw [if_pos hc]
    exact List.mem_cons_of_mem _ (List.mem_singleton.mpr rfl)

/-- Claim C9: the `checkTTL` flag is a pure function of the options,
holding iff noExpiry, maxTTL or minTTL is present; the batched fetch for a
page issues a per-key TTL command exactly when the flag holds; and in any
reachable state every emitted selected-key record carries a `ttl` field
exactly when the flag holds. -/
theorem checkTTL_governs (o : ScanOptions) :
    (checkTTL o = true ↔
      (o.noExpiry.isSome = true ∨ o.maxTTL.isSome = true ∨ o.minTTL.isSome = true)) ∧
    (∀ keys k, RedisCommand.ttl k ∈ pipelineCommands o keys ↔
      (checkTTL o = true ∧ k ∈ keys)) ∧
    (∀ name adv pages s en, Reach o name adv pages s →
      Event.selected en ∈ s.events → en.ttl.isSome = checkTTL o) := by
  refine ⟨?_, fun keys k => ttl_mem_pipeline o keys k, ?_⟩
  · unfold checkTTL
    simp only [Bool.or_eq_true]
    tauto
  · intro name adv pages s en hr hmem
    exact (reach_inv hr).entryTTL en hmem

/-- With a filter that rejects every key, a run selects nothing and emits
no selected-key record. -/
lemma no_select_run {o : ScanOptions}
    (hfalse : ∀ i t : Int, selectKey o i t = false)
    {name : String} {adv : Bool} {pages : List (List KeyMeta)} {s : ScanState}
    (hr : Reach o name adv pages s) :
    s.selected = 0 ∧ countSelected s.events = 0 := by
  unfold Reach at hr
  induction hr with
  | refl => exact ⟨rfl, rfl⟩
  | tail hab hbc ih =>
    obtain ⟨ih1, ih2⟩ := ih
    cases hbc with
    | page _ _ p rest hp hpause =>
      unfold dispatchPage
      split
      · exact ⟨ih1, ih2⟩
      · exact ⟨ih1, ih2⟩
    | resolve _ _ pre post b hout =>
      have hid : ∀ (l : List (Nat × String)) (st : ScanState),
          l.foldl (fun acc pr =>
            processKey o name (pageResults o b) pr.1 pr.2 acc) st = st := by
        intro l
        induction l with
        | nil => intro st; rfl
        | cons hd tl ihl =>
          intro st
          have hone : processKey o name (pageResults o b) hd.1 hd.2 st = st := by
            unfold processKey
            rw [hfalse]
            simp
          rw [List.foldl_cons, hone]
          exact ihl st
      unfold processBatch
      rw [hid]
      exact ⟨ih1, ih2⟩
    | streamEnd _ _ h1 h2 => exact ⟨ih1, ih2⟩
    | finish _ _ h1 h2 h3 h4 =>
      exact ⟨ih1, (countSelected_finishState _).trans ih2⟩
    | reject _ pre post b hout => exact ⟨ih1, ih2⟩
    | errorEvt _ he =>
      exact ⟨ih1, (countSelected_errorState _).trans ih2⟩

/-- Claim C10: with `noExpiry` present but `false` (possible through the
module interface), the filter rejects every key — the clause needs a truthy
configured value in addition to ttl = -1 — so any run over any store
selects zero keys, emits no selected-key record, and every summary it emits
reports keysSelected = 0. -/
theorem noExpiry_false_selects_nothing (o : ScanOptions)
    (hfalse : o.noExpiry = some false) :
    (∀ i t : Int, selectKey o i t = false) ∧
    (∀ name adv pages s, Reach o name adv pages s →
      s.selected = 0 ∧ countSelected s.events = 0 ∧
      ∀ a b, Event.summary a b ∈ s.events → b = 0) := by
  have hsel : ∀ i t : Int, selectKey o i t = false := by
    intro i t
    unfold selectKey
    rw [hfalse]
    simp
  refine ⟨hsel, ?_⟩
  intro name adv pages s hr
  obtain ⟨h1, h2⟩ := no_select_run hsel hr
  refine ⟨h1, h2, ?_⟩
  intro a b hmem
  have hb := (summary_mem_eq (reach_inv hr) hmem).2.1
  omega

theorem noExpiry_false_selects_nothing_witness :
    selectKey optNoExpiryFalse 3 (-1) = false :=
  (noExpiry_false_selects_nothing optNoExpiryFalse rfl).1 3 (-1)

/-- Claim C6 (counterexample): the error latch and the completion latch are
independent, so "exactly one terminal signal per completed scan" fails: in
the run `runBothTerminals` — a recoverable client error event during a scan
of an empty store that then completes — the final event log holds one error
AND one summary (two terminal signals), and no further step is possible. -/
theorem one_terminal_counterexample :
    ¬ (∀ (o : ScanOptions) (name : String) (pages : List (List KeyMeta))
        (s : ScanState), Reach o name true pages s →
        (∀ t, ¬ Step o name true s t) →
        countSummary s.events + countError s.events = 1) := by
  intro h
  have hreach : Reach { } "server" true [] runBothTerminals :=
    Relation.ReflTransGen.tail (Relation.ReflTransGen.tail
      (Relation.ReflTransGen.tail Relation.ReflTransGen.refl
        (Step.errorEvt (initState []) rfl))
      (Step.streamEnd true (errorState (initState [])) rfl rfl))
      (Step.finish true (endState (errorState (initState []))) rfl rfl rfl rfl)
  have hmax : ∀ t, ¬ Step { } "server" true runBothTerminals t := by
    intro t hstep
    cases hstep with
    | page _ _ p rest hp hpause =>
      exact absurd hp (by simp [runBothTerminals, finishState, endState,
        errorState, initState])
    | resolve _ _ pre post b hout =>
      exact absurd hout (by simp [runBothTerminals, finishState, endState,
        errorState, initState])
    | streamEnd _ _ h1 h2 =>
      exact absurd h2 (by simp [runBothTerminals, finishState, endState,
        errorState, initState])
    | finish _ _ h1 h2 h3 h4 =>
      exact absurd h2 (by simp [runBothTerminals, finishState, endState,
        errorState, initState])
    | reject _ pre post b hout =>
      exact absurd hout (by simp [runBothTerminals, finishState, endState,
        errorState, initState])
    | errorEvt _ he =>
      exact absurd he (by simp [runBothTerminals, finishState, endState,
        errorState, initState])
  have h2 := h { } "server" [] runBothTerminals hreach hmax
  exact absurd h2 (by decide)

/-- Claim C6 (amended): both terminal paths are single-fire — at most one
summary and at most one error are ever emitted — and a batch-fetch failure
permanently prevents the summary (scenario E: the error is surfaced
instead).  The two latches are however independent, not mutually exclusive:
a scan may emit both an error and a summary (see the counterexample), or —
if a fetch promise rejects without a client 'error' event — neither. -/
theorem terminal_latches (o : ScanOptions) (name : String)
    (pages : List (List KeyMeta)) (s : ScanState)
    (hr : Reach o name true pages s) :
    countSummary s.events ≤ 1 ∧ countError s.events ≤ 1 ∧
    (s.failed = true → countSummary s.events = 0) := by
  have hinv := reach_inv hr
  refine ⟨inv_countSummary_le_one hinv, ?_, ?_⟩
  · rw [hinv.errCount]
    split
    · omega
    · omega
  · intro hfail
    have hsd : s.summaryDone = false := by
      cases hv : s.summaryDone
      · rfl
      · rw [hinv.sumNotFailed hv] at hfail
        cases hfail
    have h0 := hinv.sumShape
    rw [if_neg (by simp [hsd])] at h0
    exact h0

theorem terminal_latches_witness :
    countError (initState []).events ≤ 1 :=
  (terminal_latches { } "server" [] (initState [])
    Relation.ReflTransGen.refl).2.1

end RedisKeyScanner
